import Mathlib

/-!
Verification development for the contextor repository.

The Python sources are shallowly embedded as Lean definitions:

* Python strings are modelled as `List Char` (`PyStr`); `s.lower()`,
  `s.startswith(t)`, `s.endswith(t)`, `s.split(c)` and `'/'.join(parts)`
  become `pyLower`, `pyStartsWith`, `pyEndsWith`, `List.splitOn` and
  `pyJoin`.  Python compares strings by code point, which is `pyLe`.
* `contextor/utils.py`: `DEFAULT_EXCLUSIONS`, `should_exclude`,
  `is_binary_file`, `is_signature_file`, `get_git_tracked_files` and
  `scan_project_files` are embedded below under the same names.  A
  `pathlib` path together with its base is represented by the outcome of
  `path.relative_to(base)` (an `Option PyStr`, `none` when `relative_to`
  raises `ValueError`) plus an `is_dir` flag; a `pathspec.PathSpec` is
  abstracted to its `match_file` predicate (`MatchFile`).
* The filesystem seen by `os.walk` is a finite tree (`FSTree`).  A file
  carries the byte content `open(..., 'rb')` would deliver (`none` when
  the open raises) and the `stat` size (`none` when `stat` raises
  `OSError`).  An unreadable directory models `scandir` failing, which
  `os.walk` swallows (`onerror` is `None`), and a missing root directory
  is `none`, for which `os.walk` likewise yields nothing.
* `codecontextor/main.py`: `should_exclude`, `format_name` and
  `generate_tree` are embedded as `main_should_exclude`, `format_name`
  and `generate_tree`/`renderSibs`.

Absolute paths produced by the scan all share the constant prefix
`directory + os.sep`; the embedding works with the root-relative,
forward-slash joined remainder, which preserves membership, equality and
lexicographic order of the produced lists.
-/

/-- Python strings, modelled as their list of characters. -/
abbrev PyStr := List Char

/-- Conversion from a Lean string literal to the model. -/
def pys (s : String) : PyStr := s.toList

/-- Python `s.lower()` (the sources only rely on ASCII case folding). -/
def pyLower (s : PyStr) : PyStr := s.map Char.toLower

/-- Python `s.startswith(t)`. -/
def pyStartsWith (s t : PyStr) : Bool := t.isPrefixOf s

/-- Python `s.endswith(t)`. -/
def pyEndsWith (s t : PyStr) : Bool := t.isSuffixOf s

/-- Python `'/'.join(parts)`. -/
def pyJoin (parts : List PyStr) : PyStr := List.intercalate ['/'] parts

/-- Python string comparison `s <= t` (code-point lexicographic). -/
def pyLe : PyStr → PyStr → Bool
  | [], _ => true
  | _ :: _, [] => false
  | a :: as, b :: bs =>
      if a.toNat < b.toNat then true
      else if b.toNat < a.toNat then false
      else pyLe as bs

/-- The order on paths used by Python's `sorted`. -/
def pyLeRel (a b : PyStr) : Prop := pyLe a b = true

instance : DecidableRel pyLeRel :=
  fun a b => inferInstanceAs (Decidable (pyLe a b = true))

instance : IsTrans PyStr pyLeRel where
  trans := by
    intro a
    induction a with
    | nil => intro b c _ _; cases b <;> cases c <;> simp [pyLeRel, pyLe]
    | cons x xs ih =>
        intro b c hab hbc
        cases b with
        | nil => simp [pyLeRel, pyLe] at hab
        | cons y ys =>
            cases c with
            | nil => simp [pyLeRel, pyLe] at hbc
            | cons z zs =>
                simp only [pyLeRel, pyLe] at hab hbc ⊢
                by_cases h1 : x.toNat < y.toNat
                · by_cases h2 : y.toNat < z.toNat
                  · have h3 : x.toNat < z.toNat := h1.trans h2
                    simp [h3]
                  · by_cases h2' : z.toNat < y.toNat
                    · simp [h2, h2'] at hbc
                    · have h3 : x.toNat < z.toNat := by omega
                      simp [h3]
                · by_cases h1' : y.toNat < x.toNat
                  · simp [h1, h1'] at hab
                  · simp [h1, h1'] at hab
                    by_cases h2 : y.toNat < z.toNat
                    · have h3 : x.toNat < z.toNat := by omega
                      simp [h3]
                    · by_cases h2' : z.toNat < y.toNat
                      · simp [h2, h2'] at hbc
                      · simp [h2, h2'] at hbc
                        have h3 : ¬ x.toNat < z.toNat := by omega
                        have h3' : ¬ z.toNat < x.toNat := by omega
                        simp [h3, h3']
                        exact ih ys zs hab hbc

instance : IsTotal PyStr pyLeRel where
  total := by
    intro a
    induction a with
    | nil => intro b; left; cases b <;> simp [pyLeRel, pyLe]
    | cons x xs ih =>
        intro b
        cases b with
        | nil => right; simp [pyLeRel, pyLe]
        | cons y ys =>
            by_cases h1 : x.toNat < y.toNat
            · left; simp [pyLeRel, pyLe, h1]
            · by_cases h2 : y.toNat < x.toNat
              · right; simp [pyLeRel, pyLe, h2]
              · rcases ih ys with h | h
                · left; simpa [pyLeRel, pyLe, h1, h2] using h
                · right; simpa [pyLeRel, pyLe, h1, h2] using h

/-- The `match_file` predicate of a `pathspec.PathSpec` built from user
patterns (gitignore semantics, including negation), abstracted as an
arbitrary function of the relative path string. -/
abbrev MatchFile := PyStr → Bool

/-- The hardcoded default exclusions of `contextor/utils.py` (a Python
set; order is irrelevant to the matching result). -/
def DEFAULT_EXCLUSIONS : List PyStr :=
  [pys ".git/", pys ".conda/", pys ".venv/", pys "venv/",
   pys "node_modules/", pys "__pycache__/", pys "*.pyc", pys ".idea/",
   pys ".vscode/", pys "dist/", pys "build/", pys "target/",
   pys ".DS_Store", pys ".pytest_cache/", pys ".coverage/",
   pys "coverage/", pys "tmp/", pys "temp/", pys ".next/", pys ".nuxt/",
   pys "out/", pys ".sass-cache/", pys "__tests__/__snapshots__/",
   pys ".ipynb_checkpoints/", pys "*.lock"]

/-- The body of the `for pattern in DEFAULT_EXCLUSIONS` loop of
`should_exclude` in `contextor/utils.py` (lines 45-66): directory
patterns match by equality, raw prefix, or a parent-path enumeration
guarded by `'/' in rel_path_str`; single-`*` patterns match by a
prefix/suffix split; anything else matches by equality. -/
def matchesDefault (rel pat : PyStr) : Bool :=
  if pyEndsWith pat ['/'] then
    decide (rel = pat) || pyStartsWith rel pat ||
      (rel.contains '/' &&
        (List.range (rel.splitOn '/').length).any
          (fun i => decide (pyJoin ((rel.splitOn '/').take (i + 1)) ++ ['/'] = pat)))
  else if pat.contains '*' then
    match pat.splitOn '*' with
    | [p0, p1] => pyStartsWith rel p0 && pyEndsWith rel p1
    | _ => false
  else decide (rel = pat)

/-- Python appends a trailing slash to the relative path of a directory
before matching. -/
def relWithSlash (r : PyStr) (isDir : Bool) : PyStr :=
  if isDir then r ++ ['/'] else r

/-- The `should_exclude` of `contextor/utils.py`, with the hardcoded
default list kept as a parameter.  `rel` is the outcome of
`path.relative_to(base_path)` (`none` when it raises `ValueError`, in
which case the function falls through to `return False`). -/
def should_exclude_core (defaults : List PyStr) (rel : Option PyStr)
    (isDir : Bool) (spec : Option MatchFile) : Bool :=
  match rel with
  | none => false
  | some r =>
      let rps := relWithSlash r isDir
      if defaults.any (fun pat => matchesDefault rps pat) then true
      else
        match spec with
        | some f => f rps
        | none => false

/-- `should_exclude` of `contextor/utils.py` (defaults first, then the
user spec). -/
def should_exclude (rel : Option PyStr) (isDir : Bool)
    (spec : Option MatchFile) : Bool :=
  should_exclude_core DEFAULT_EXCLUSIONS rel isDir spec

/-- `should_exclude` of `codecontextor/main.py`: no default layer, `spec
is None` and an unresolvable relative path both yield `False`. -/
def main_should_exclude (rel : Option PyStr) (isDir : Bool)
    (spec : Option MatchFile) : Bool :=
  match spec with
  | none => false
  | some f =>
      match rel with
      | none => false
      | some r => f (relWithSlash r isDir)

/-- The known-binary extension set of `is_binary_file`. -/
def binary_extensions : List PyStr :=
  [pys ".png", pys ".jpg", pys ".jpeg", pys ".gif", pys ".bmp",
   pys ".ico", pys ".svg", pys ".pdf", pys ".doc", pys ".docx",
   pys ".ppt", pys ".pptx", pys ".xls", pys ".xlsx", pys ".zip",
   pys ".tar", pys ".gz", pys ".rar", pys ".7z", pys ".bin",
   pys ".exe", pys ".dll", pys ".so", pys ".dylib", pys ".class",
   pys ".jar", pys ".pyc"]

/-- The extension test of `is_binary_file`:
`any(file_path.lower().endswith(ext) for ext in binary_extensions)`. -/
def hasBinExt (p : PyStr) : Bool :=
  binary_extensions.any (fun e => pyEndsWith (pyLower p) e)

/-- `is_binary_file` of `contextor/utils.py`.  `content` is what
`open(file_path, 'rb')` would deliver: `none` when the open raises
`IOError`/`PermissionError` (then the function returns `True`), else the
file's bytes, of which `f.read(1024)` reads the first 1024. -/
def is_binary_file (p : PyStr) (content : Option (List Nat)) : Bool :=
  if hasBinExt p then true
  else
    match content with
    | none => true
    | some bytes => (bytes.take 1024).contains 0

/-- `is_signature_file` of `contextor/utils.py`. -/
def is_signature_file (p : PyStr) : Bool :=
  pyEndsWith p (pys ".py") ||
  (pyEndsWith (pyLower p) (pys ".md") ||
   pyEndsWith (pyLower p) (pys ".markdown")) ||
  (pyEndsWith (pyLower p) (pys ".js") ||
   pyEndsWith (pyLower p) (pys ".jsx") ||
   pyEndsWith (pyLower p) (pys ".ts") ||
   pyEndsWith (pyLower p) (pys ".tsx")) ||
  pyEndsWith (pyLower p) (pys ".sql")

/-- Outcome of the `subprocess.run(['git', 'ls-files', ...], check=True)`
call in `get_git_tracked_files`: success with the stdout lines, or one of
the failure modes caught by the `except` clause (`CalledProcessError` on
non-zero exit, e.g. not a repository; another `SubprocessError`; or
`FileNotFoundError` when the git tool is not installed). -/
inductive GitQueryOutcome where
  | success (lines : List PyStr) : GitQueryOutcome
  | calledProcessError : GitQueryOutcome
  | subprocessError : GitQueryOutcome
  | fileNotFoundError : GitQueryOutcome
deriving DecidableEq

/-- Whether the git query failed. -/
def GitQueryOutcome.isFailure : GitQueryOutcome → Bool
  | .success _ => false
  | _ => true

/-- `get_git_tracked_files` of `contextor/utils.py`: on success the
stdout lines (repo-relative paths, which the code normalises to absolute
paths under the repo root — the embedding keeps the root-relative form),
on any caught failure the empty set. -/
def get_git_tracked_files (o : GitQueryOutcome) : List PyStr :=
  match o with
  | .success lines => lines
  | .calledProcessError => []
  | .subprocessError => []
  | .fileNotFoundError => []

/-- The tracked set computed at the start of `scan_project_files`:
queried once when `is_git_repo(directory)` holds, else empty. -/
def trackedSetOf (isRepo : Bool) (o : GitQueryOutcome) : List PyStr :=
  if isRepo then get_git_tracked_files o else []

/-- Per-file data seen during the walk: the bytes `open(..., 'rb')`
would deliver (`none` when the open raises) and the `stat().st_size`
value (`none` when `stat` raises `OSError`). -/
structure FileInfo where
  content : Option (List Nat)
  size : Option Nat
deriving DecidableEq

mutual
/-- A directory as enumerated by `os.walk`: whether `scandir` succeeds
on it (`os.walk` silently skips it otherwise, since `onerror` is
`None`), its subdirectories and its plain files. -/
inductive FSTree where
  | node (readable : Bool) (subs : FSubs) (files : List (PyStr × FileInfo)) : FSTree
/-- The named subdirectories of a directory (a list, mutualised with
`FSTree` so that the walk is structurally recursive). -/
inductive FSubs where
  | nil : FSubs
  | cons (name : PyStr) (child : FSTree) (rest : FSubs) : FSubs
end

/-- Everything one `scan_project_files` traversal accumulates, as
root-relative segment paths: the admitted `all_files`, the
`signature_candidates` among them, plus a trace of the traversal's I/O —
the directories whose entries `os.walk` listed and the files whose
content `is_binary_file` opened. -/
structure ScanAcc where
  all : List (List PyStr)
  cand : List (List PyStr)
  listed : List (List PyStr)
  opened : List (List PyStr)
deriving DecidableEq

/-- Concatenation of accumulators (the walk emits in top-down order). -/
def ScanAcc.append (a b : ScanAcc) : ScanAcc :=
  ⟨a.all ++ b.all, a.cand ++ b.cand, a.listed ++ b.listed,
   a.opened ++ b.opened⟩

/-- The empty accumulator. -/
def emptyAcc : ScanAcc := ⟨[], [], [], []⟩

/-- The `for filename in filenames` body of `scan_project_files` for one
file at segment path `p`: skip when excluded; skip when binary (the
content is only opened when the extension test was inconclusive); skip
when `stat` fails or reports more than 10 MiB; otherwise admit to
`all_files` and, when `is_signature_file` holds and (`git_only_signatures`
is off or the path is git-tracked), to `signature_candidates`. -/
def scanFile (spec : Option MatchFile) (gitOnly : Bool)
    (tracked : List PyStr) (p : List PyStr) (info : FileInfo) : ScanAcc :=
  let rel := pyJoin p
  if should_exclude (some rel) false spec then emptyAcc
  else
    let op : List (List PyStr) := if hasBinExt rel then [] else [p]
    if is_binary_file rel info.content then { emptyAcc with opened := op }
    else
      match info.size with
      | none => { emptyAcc with opened := op }
      | some n =>
          if 10485760 < n then { emptyAcc with opened := op }
          else
            { all := [p],
              cand :=
                if is_signature_file rel && (!gitOnly || tracked.contains rel)
                then [p] else [],
              listed := [],
              opened := op }

/-- The file loop of `scan_project_files` over a directory's file list
(`segs` is the directory's segment path from the root). -/
def scanFilesAcc (spec : Option MatchFile) (gitOnly : Bool)
    (tracked : List PyStr) (segs : List PyStr) :
    List (PyStr × FileInfo) → ScanAcc
  | [] => emptyAcc
  | (name, info) :: rest =>
      (scanFile spec gitOnly tracked (segs ++ [name]) info).append
        (scanFilesAcc spec gitOnly tracked segs rest)

mutual
/-- One `os.walk` iteration of `scan_project_files` at the directory
with segment path `segs`: when `scandir` fails the whole subtree yields
nothing; otherwise the directory is listed, its files are processed, and
the walk descends into exactly the subdirectories that survive the
in-place `dirnames[:] = filtered_dirs` pruning. -/
def scanDirAcc (spec : Option MatchFile) (gitOnly : Bool)
    (tracked : List PyStr) (segs : List PyStr) : FSTree → ScanAcc
  | .node r subs files =>
      if r then
        let fa := scanFilesAcc spec gitOnly tracked segs files
        ScanAcc.append { fa with listed := segs :: fa.listed }
          (scanSubsAcc spec gitOnly tracked segs subs)
      else emptyAcc
/-- The walk over a directory's subdirectory list.  A subdirectory whose
`should_exclude` check (with trailing slash) succeeds is removed from
`dirnames` in place, so the walk never descends into it. -/
def scanSubsAcc (spec : Option MatchFile) (gitOnly : Bool)
    (tracked : List PyStr) (segs : List PyStr) : FSubs → ScanAcc
  | .nil => emptyAcc
  | .cons name child rest =>
      ScanAcc.append
        (if should_exclude (some (pyJoin (segs ++ [name]))) true spec
         then emptyAcc
         else scanDirAcc spec gitOnly tracked (segs ++ [name]) child)
        (scanSubsAcc spec gitOnly tracked segs rest)
end

/-- The whole traversal: `os.walk` of a missing root yields nothing. -/
def scanRootAcc (spec : Option MatchFile) (gitOnly : Bool)
    (tracked : List PyStr) : Option FSTree → ScanAcc
  | none => emptyAcc
  | some t => scanDirAcc spec gitOnly tracked [] t

/-- The dict returned by `scan_project_files` (paths root-relative, see
the header note). -/
structure ScanResult where
  all_files : List PyStr
  signature_candidates : List PyStr
  git_tracked : List PyStr
deriving DecidableEq

/-- Python's `sorted` on path strings. -/
def sortedPaths (l : List PyStr) : List PyStr := List.insertionSort pyLeRel l

/-- `scan_project_files` of `contextor/utils.py`: fetch the tracked set
once, walk once with in-place pruning, and return both file lists
sorted. -/
def scan_project_files (root : Option FSTree) (spec : Option MatchFile)
    (isRepo : Bool) (gitOutcome : GitQueryOutcome)
    (git_only_signatures : Bool) : ScanResult :=
  let git_tracked := trackedSetOf isRepo gitOutcome
  let acc := scanRootAcc spec git_only_signatures git_tracked root
  { all_files := sortedPaths (acc.all.map pyJoin),
    signature_candidates := sortedPaths (acc.cand.map pyJoin),
    git_tracked := git_tracked }

/-- An entry yielded by `path.iterdir()` in `generate_tree`: a plain
file, or a directory with its own entries (`readable` records whether a
recursive `iterdir` on it succeeds; `generate_tree` catches the
`PermissionError` and stops there). -/
inductive TNode where
  | file (name : PyStr) : TNode
  | dir (name : PyStr) (readable : Bool) (children : List TNode) : TNode

/-- The entry's `.name`. -/
def TNode.name : TNode → PyStr
  | .file n => n
  | .dir n _ _ => n

/-- The entry's `.is_dir()`. -/
def TNode.isDir : TNode → Bool
  | .file _ => false
  | .dir _ _ _ => true

/-- `format_name` of `codecontextor/main.py`. -/
def format_name (name : PyStr) (isDir isLast : Bool) : PyStr :=
  (if isLast then pys "└── " else pys "├── ") ++ name ++
    (if isDir then ['/'] else [])

/-- The `if not should_exclude(item, path, spec)` filter of
`generate_tree`; note that the base passed there is the directory being
listed, so the relative path is the entry's bare name. -/
def keepEntry (spec : Option MatchFile) (t : TNode) : Bool :=
  ! main_should_exclude (some t.name) t.isDir spec

/-- The sort key comparison of `generate_tree`:
`key=lambda x: (not x.is_dir(), x.name.lower())`, compared as a Python
tuple. -/
def itemLe (a b : TNode) : Bool :=
  if (!a.isDir) = (!b.isDir) then pyLe (pyLower a.name) (pyLower b.name)
  else !b.isDir

/-- `itemLe` as a relation. -/
def itemRel (a b : TNode) : Prop := itemLe a b = true

instance : DecidableRel itemRel :=
  fun a b => inferInstanceAs (Decidable (itemLe a b = true))

instance : IsTrans TNode itemRel where
  trans := by
    intro a b c hab hbc
    simp only [itemRel, itemLe] at hab hbc ⊢
    cases ha : a.isDir <;> cases hb : b.isDir <;> cases hc : c.isDir <;>
      simp [ha, hb, hc] at hab hbc ⊢ <;>
      exact IsTrans.trans (r := pyLeRel) _ _ _ hab hbc

instance : IsTotal TNode itemRel where
  total := by
    intro a b
    simp only [itemRel, itemLe]
    cases ha : a.isDir <;> cases hb : b.isDir <;> simp [ha, hb] <;>
      exact IsTotal.total (r := pyLeRel) _ _

/-- The `items` list of one `generate_tree` level: the children that
survive the exclusion filter, sorted directories-first and then by
lowercased name. -/
def sortEntries (spec : Option MatchFile) (children : List TNode) :
    List TNode :=
  List.insertionSort itemRel (children.filter (keepEntry spec))

/-- The `for index, item in enumerate(items)` loop of `generate_tree`
(with the recursive call for subdirectories inlined: a recursive call
always has a non-empty prefix, so it emits no root line, and a
`PermissionError` there returns no lines).  `is_last`, which the code
computes as `index == len(items) - 1`, is embedded as "the rest of the
sibling list is empty". -/
def renderSibs (spec : Option MatchFile) (pref : PyStr) :
    List TNode → List PyStr
  | [] => []
  | t :: rest =>
      let isLast := rest.isEmpty
      let line := pref ++ format_name t.name t.isDir isLast
      let sub : List PyStr :=
        match t with
        | .file _ => []
        | .dir _ r cs =>
            if r then
              renderSibs spec
                (pref ++ (if isLast then pys "    " else pys "│   "))
                (sortEntries spec cs)
            else []
      line :: (sub ++ renderSibs spec pref rest)
  termination_by l => (l.map sizeOf).sum
  decreasing_by
  · rename_i rd cs _hr
    have hperm : ((sortEntries spec cs).map sizeOf).sum
        = ((cs.filter (keepEntry spec)).map sizeOf).sum :=
      ((List.perm_insertionSort itemRel _).map sizeOf).sum_eq
    have hfil : ∀ (l : List TNode),
        ((l.filter (keepEntry spec)).map sizeOf).sum ≤ (l.map sizeOf).sum := by
      intro l
      induction l with
      | nil => simp
      | cons x xs ih =>
          by_cases hx : keepEntry spec x = true <;>
            simp [List.filter_cons, hx] <;> omega
    have hbound : ∀ (l : List TNode), (l.map sizeOf).sum < sizeOf l := by
      intro l
      induction l with
      | nil => simp
      | cons x xs ih => simp; omega
    have hcs := hbound cs
    have hfilcs := hfil cs
    simp only [hperm, List.map_cons, List.sum_cons, TNode.dir.sizeOf_spec]
    omega
  · have hpos : 0 < sizeOf t := by cases t <;> simp
    simp only [List.map_cons, List.sum_cons]
    omega

/-- `generate_tree` of `codecontextor/main.py` at its top-level call
(empty `prefix`): a missing path yields nothing; otherwise the resolved
root path string is the first line, unprefixed, and when `iterdir`
succeeds the filtered, sorted children are rendered below it. -/
def generate_tree (spec : Option MatchFile) (pathStr : PyStr)
    (dirExists readable : Bool) (children : List TNode) : List PyStr :=
  if dirExists then
    if readable then
      pathStr :: renderSibs spec [] (sortEntries spec children)
    else [pathStr]
  else []

/-- Spec-side reading of the directory-pattern sentence: "any ancestor
directory segment equals the pattern" — the proper ancestor directories
of the relative path (for `a/b/c` these are `a/` and `a/b/`). -/
def ancestorEq (s pat : PyStr) : Prop :=
  ∃ k < (s.splitOn '/').length - 1,
    pyJoin ((s.splitOn '/').take (k + 1)) ++ ['/'] = pat

/-- Spec-side directory-pattern match, following C2's wording: equality,
raw prefix, or a proper ancestor directory equal to the pattern. -/
def claimDirMatch (s pat : PyStr) : Prop :=
  s = pat ∨ pyStartsWith s pat = true ∨ ancestorEq s pat

/-- The directory-pattern match the code actually implements: equality,
raw prefix, or — only when the path contains a `/` — some prefix of its
slash-separated segments (up to and including all of them) joined with a
trailing `/` equal to the pattern. -/
def codeDirMatch (s pat : PyStr) : Prop :=
  s = pat ∨ pyStartsWith s pat = true ∨
    (s.contains '/' = true ∧
      ∃ k < (s.splitOn '/').length,
        pyJoin ((s.splitOn '/').take (k + 1)) ++ ['/'] = pat)

/-- Exclusion verdict for a directory with root-relative segment path
`d`, as `scan_project_files` computes it before descending. -/
def dirExcl (spec : Option MatchFile) (d : List PyStr) : Bool :=
  should_exclude (some (pyJoin d)) true spec

/-- A file segment path all of whose proper, non-empty segment-prefixes
are non-excluded directories. -/
def fileClean (spec : Option MatchFile) (p : List PyStr) : Prop :=
  ∀ d, d ≠ [] → d <+: p → d ≠ p → dirExcl spec d = false

/-- A directory segment path all of whose non-empty segment-prefixes
(itself included) are non-excluded directories. -/
def dirClean (spec : Option MatchFile) (q : List PyStr) : Prop :=
  ∀ d, d ≠ [] → d <+: q → dirExcl spec d = false

/-- A small concrete project: a `node_modules` directory containing
`x.js`, and a plain `a.py` at the root. -/
def sampleScanTree : FSTree :=
  .node true
    (.cons (pys "node_modules")
      (.node true .nil [(pys "x.js", ⟨some [1, 2], some 5⟩)]) .nil)
    [(pys "a.py", ⟨some [10, 20], some 2⟩)]

/-- Claim-side block for a non-last sibling in the tree rendering: a
`├── ` line followed by the recursively rendered subtree under a
`│   `-extended prefix. -/
def nonLastBlock (spec : Option MatchFile) (pref : PyStr) (t : TNode) :
    List PyStr :=
  (pref ++ pys "├── " ++ t.name ++ (if t.isDir then ['/'] else [])) ::
    (match t with
     | .file _ => []
     | .dir _ r cs =>
         if r then
           renderSibs spec (pref ++ pys "│   ") (sortEntries spec cs)
         else [])

/-- Claim-side block for the last sibling: a `└── ` line followed by the
subtree under a four-space-extended prefix. -/
def lastBlock (spec : Option MatchFile) (pref : PyStr) (t : TNode) :
    List PyStr :=
  (pref ++ pys "└── " ++ t.name ++ (if t.isDir then ['/'] else [])) ::
    (match t with
     | .file _ => []
     | .dir _ r cs =>
         if r then
           renderSibs spec (pref ++ pys "    ") (sortEntries spec cs)
         else [])

/-- Claim-side sibling order: directories before files, then
case-insensitively by name. -/
def claimOrder (a b : TNode) : Prop :=
  (a.isDir = true ∧ b.isDir = false) ∨
    (a.isDir = b.isDir ∧ pyLeRel (pyLower a.name) (pyLower b.name))

theorem mem_sortedPaths (l : List PyStr) (a : PyStr) :
    a ∈ sortedPaths l ↔ a ∈ l :=
  (List.perm_insertionSort pyLeRel l).mem_iff

theorem sorted_sortedPaths (l : List PyStr) :
    List.Sorted pyLeRel (sortedPaths l) :=
  List.sorted_insertionSort pyLeRel l

theorem suffix_unique {s t1 t2 : PyStr} (h1 : t1 <:+ s) (h2 : t2 <:+ s)
    (hl : t1.length = t2.length) : t1 = t2 := by
  obtain ⟨a, ha⟩ := h1
  obtain ⟨b, hb⟩ := h2
  have hab : a ++ t1 = b ++ t2 := by rw [ha, hb]
  have hlen : a.length = b.length := by
    have := congrArg List.length hab
    simp at this
    omega
  exact (List.append_inj hab hlen).2

theorem pyEndsWith_iff (s t : PyStr) : pyEndsWith s t = true ↔ t <:+ s := by
  simp [pyEndsWith, List.isSuffixOf_iff_suffix]

theorem pyEndsWith_lower {p t : PyStr} (h : pyEndsWith p t = true) :
    pyEndsWith (pyLower p) (pyLower t) = true := by
  rw [pyEndsWith_iff] at h ⊢
  exact h.map Char.toLower

theorem lower_branch_false {p : PyStr} (e : PyStr)
    (h : pyEndsWith (pyLower p) (pys ".py") = true)
    (hne : ¬ e.drop (e.length - 3) = pys ".py") (hlen : 3 ≤ e.length) :
    pyEndsWith (pyLower p) e = false := by
  by_contra hc
  rw [Bool.not_eq_false, pyEndsWith_iff] at hc
  rw [pyEndsWith_iff] at h
  have he' : e.drop (e.length - 3) <:+ pyLower p :=
    (List.drop_suffix _ _).trans hc
  have hlen' : (e.drop (e.length - 3)).length = (pys ".py").length := by
    simp [pys]
    omega
  exact hne (suffix_unique he' h hlen')

/-- Claim C10: the signature predicate checks the `.py` extension
case-sensitively (a path ending in `.PY` is rejected) while every other
recognised extension is checked on the lowercased path, so uppercase
variants of the markdown, JS/TS/JSX/TSX and SQL extensions are
accepted. -/
theorem c10 (p : PyStr) :
    (pyEndsWith p (pys ".py") = true → is_signature_file p = true) ∧
    (pyEndsWith p (pys ".PY") = true → is_signature_file p = false) ∧
    (pyEndsWith p (pys ".MD") = true → is_signature_file p = true) ∧
    (pyEndsWith p (pys ".MARKDOWN") = true → is_signature_file p = true) ∧
    (pyEndsWith p (pys ".JS") = true → is_signature_file p = true) ∧
    (pyEndsWith p (pys ".JSX") = true → is_signature_file p = true) ∧
    (pyEndsWith p (pys ".TS") = true → is_signature_file p = true) ∧
    (pyEndsWith p (pys ".TSX") = true → is_signature_file p = true) ∧
    (pyEndsWith p (pys ".SQL") = true → is_signature_file p = true) := by
  have hlow : ∀ t t' : PyStr, pyLower t = t' → pyEndsWith p t = true →
      pyEndsWith (pyLower p) t' = true := by
    intro t t' ht h
    rw [← ht]
    exact pyEndsWith_lower h
  refine ⟨?_, ?_, ?_, ?_, ?_, ?_, ?_, ?_, ?_⟩
  · intro h; simp [is_signature_file, h]
  · intro h
    have hPY : pys ".PY" <:+ p := (pyEndsWith_iff _ _).mp h
    have hpylow : pyEndsWith (pyLower p) (pys ".py") = true :=
      hlow (pys ".PY") (pys ".py") (by decide) h
    have b1 : pyEndsWith p (pys ".py") = false := by
      by_contra hc
      rw [Bool.not_eq_false, pyEndsWith_iff] at hc
      have := suffix_unique hc hPY (by decide)
      simp [pys] at this
    simp [is_signature_file, b1,
      lower_branch_false (pys ".md") hpylow (by decide) (by decide),
      lower_branch_false (pys ".markdown") hpylow (by decide) (by decide),
      lower_branch_false (pys ".js") hpylow (by decide) (by decide),
      lower_branch_false (pys ".jsx") hpylow (by decide) (by decide),
      lower_branch_false (pys ".ts") hpylow (by decide) (by decide),
      lower_branch_false (pys ".tsx") hpylow (by decide) (by decide),
      lower_branch_false (pys ".sql") hpylow (by decide) (by decide)]
  · intro h
    simp [is_signature_file, hlow (pys ".MD") (pys ".md") (by decide) h]
  · intro h
    simp [is_signature_file,
      hlow (pys ".MARKDOWN") (pys ".markdown") (by decide) h]
  · intro h
    simp [is_signature_file, hlow (pys ".JS") (pys ".js") (by decide) h]
  · intro h
    simp [is_signature_file, hlow (pys ".JSX") (pys ".jsx") (by decide) h]
  · intro h
    simp [is_signature_file, hlow (pys ".TS") (pys ".ts") (by decide) h]
  · intro h
    simp [is_signature_file, hlow (pys ".TSX") (pys ".tsx") (by decide) h]
  · intro h
    simp [is_signature_file, hlow (pys ".SQL") (pys ".sql") (by decide) h]

/-- Witness for C10 at concrete inputs. -/
theorem c10_witness :
    is_signature_file (pys "A.PY") = false ∧
    is_signature_file (pys "B.MD") = true ∧
    is_signature_file (pys "c.py") = true := by
  refine ⟨(c10 (pys "A.PY")).2.1 ?_, (c10 (pys "B.MD")).2.2.1 ?_,
    (c10 (pys "c.py")).1 ?_⟩ <;> decide

/-- Claim C3: default patterns are checked first and unconditionally —
whenever some hardcoded default pattern matches, the verdict is
`excluded` for every user pattern specification (negations included),
and the user matcher's verdict is returned only when no default
matches. -/
theorem c3 (r : PyStr) (isDir : Bool) :
    (DEFAULT_EXCLUSIONS.any
        (fun pat => matchesDefault (relWithSlash r isDir) pat) = true →
      ∀ spec : Option MatchFile, should_exclude (some r) isDir spec = true) ∧
    (DEFAULT_EXCLUSIONS.any
        (fun pat => matchesDefault (relWithSlash r isDir) pat) = false →
      ∀ f : MatchFile,
        should_exclude (some r) isDir (some f) = f (relWithSlash r isDir)) := by
  constructor
  · intro h spec
    simp [should_exclude, should_exclude_core, h]
  · intro h f
    simp [should_exclude, should_exclude_core, h]

/-- Witness for C3: `node_modules` is default-excluded even under a
user spec that matches nothing, and a non-default path gets exactly the
user spec's verdict. -/
theorem c3_witness :
    should_exclude (some (pys "node_modules")) true (some (fun _ => false))
        = true ∧
    should_exclude (some (pys "a.py")) false (some (fun _ => true)) = true :=
  ⟨(c3 (pys "node_modules") true).1 (by decide) (some (fun _ => false)),
   (c3 (pys "a.py") false).2 (by decide) (fun _ => true)⟩

/-- Claim C8: a path that does not resolve to a path relative to the
base (`relative_to` raises `ValueError`) is not excluded, for any
default list and any user patterns, in both `should_exclude`
implementations. -/
theorem c8 (defaults : List PyStr) (isDir : Bool) (spec : Option MatchFile) :
    should_exclude_core defaults none isDir spec = false ∧
    main_should_exclude none isDir spec = false := by
  constructor
  · rfl
  · cases spec <;> rfl

/-- Claim C6: a path with a known-binary extension is classified binary
independently of any file content (no I/O); otherwise a readable file is
binary exactly when a null byte occurs in its first 1024 bytes; and a
file that cannot be opened is always classified binary. -/
theorem c6 (p : PyStr) :
    (hasBinExt p = true →
      ∀ c : Option (List Nat), is_binary_file p c = true) ∧
    (hasBinExt p = false → ∀ bytes : List Nat,
      (is_binary_file p (some bytes) = true ↔ (0 : Nat) ∈ bytes.take 1024)) ∧
    is_binary_file p none = true := by
  refine ⟨?_, ?_, ?_⟩
  · intro h c
    simp [is_binary_file, h]
  · intro h bytes
    simp [is_binary_file, h]
  · cases h : hasBinExt p <;> simp [is_binary_file, h]

/-- Witness for C6 at concrete inputs. -/
theorem c6_witness :
    is_binary_file (pys "x.png") (some [1, 2]) = true ∧
    (is_binary_file (pys "x.txt") (some [65, 0]) = true ↔
      (0 : Nat) ∈ ([65, 0] : List Nat).take 1024) :=
  ⟨(c6 (pys "x.png")).1 (by decide) (some [1, 2]),
   (c6 (pys "x.txt")).2.1 (by decide) [65, 0]⟩

/-- Claim C7: whenever the git query fails — tool missing
(`FileNotFoundError`), not a repository or other non-zero exit
(`CalledProcessError`), or any other `SubprocessError` — the tracked set
degrades to empty instead of an error, and the scan result carries that
empty set. -/
theorem c7 (o : GitQueryOutcome) (h : o.isFailure = true) :
    get_git_tracked_files o = [] ∧
    ∀ (root : Option FSTree) (spec : Option MatchFile) (g : Bool),
      (scan_project_files root spec true o g).git_tracked = [] := by
  cases o with
  | success lines => simp [GitQueryOutcome.isFailure] at h
  | calledProcessError => exact ⟨rfl, fun _ _ _ => rfl⟩
  | subprocessError => exact ⟨rfl, fun _ _ _ => rfl⟩
  | fileNotFoundError => exact ⟨rfl, fun _ _ _ => rfl⟩

/-- Witness for C7 at a concrete failing outcome. -/
theorem c7_witness :
    get_git_tracked_files GitQueryOutcome.fileNotFoundError = [] ∧
    (scan_project_files (some sampleScanTree) none true
        GitQueryOutcome.calledProcessError true).git_tracked = [] :=
  ⟨(c7 GitQueryOutcome.fileNotFoundError (by decide)).1,
   (c7 GitQueryOutcome.calledProcessError (by decide)).2
     (some sampleScanTree) none true⟩

/-- Counterexample to C2 as stated: `__tests__/__snapshots__/` is a
default pattern ending in `/`, and the code excludes the relative path
`__tests__/__snapshots__` — a plain *file* named `__snapshots__` inside
`__tests__` — although that path neither equals the pattern, nor starts
with it, nor has any proper ancestor directory equal to it. -/
theorem c2_counterexample :
    (pys "__tests__/__snapshots__/") ∈ DEFAULT_EXCLUSIONS ∧
    pyEndsWith (pys "__tests__/__snapshots__/") ['/'] = true ∧
    matchesDefault (pys "__tests__/__snapshots__")
        (pys "__tests__/__snapshots__/") = true ∧
    ¬ claimDirMatch (pys "__tests__/__snapshots__")
        (pys "__tests__/__snapshots__/") := by
  refine ⟨by decide, by decide, by decide, ?_⟩
  unfold claimDirMatch ancestorEq
  decide

/-- Claim C2 as amended: for every default pattern ending in `/`, the
check matches a relative path exactly when the path equals the pattern,
starts with the pattern, or — when the path contains a `/` — some
prefix of its slash-separated segments, up to and including all of them,
joined with a trailing `/` equals the pattern; the stated examples for
pattern `build/` behave exactly as claimed. -/
theorem c2_amended :
    (∀ pat ∈ DEFAULT_EXCLUSIONS, pyEndsWith pat ['/'] = true →
      ∀ s, (matchesDefault s pat = true ↔ codeDirMatch s pat)) ∧
    should_exclude (some (pys "build")) true none = true ∧
    should_exclude (some (pys "build/dist/output.js")) false none = true ∧
    should_exclude (some (pys "build/temp/cache.tmp")) false none = true ∧
    should_exclude (some (pys "buildtools/file.txt")) false none = false := by
  refine ⟨?_, by decide, by decide, by decide, by decide⟩
  intro pat _ hslash s
  simp only [matchesDefault, hslash, if_pos, codeDirMatch]
  simp [List.any_eq_true, List.mem_range, decide_eq_true_eq]
  tauto

/-- Witness for the amended C2 at a concrete pattern and path. -/
theorem c2_witness :
    matchesDefault (pys "build/x.txt") (pys "build/") = true ↔
      codeDirMatch (pys "build/x.txt") (pys "build/") :=
  c2_amended.1 (pys "build/") (by decide) (by decide) (pys "build/x.txt")

theorem append_cand (a b : ScanAcc) :
    (a.append b).cand = a.cand ++ b.cand := rfl

theorem append_all (a b : ScanAcc) :
    (a.append b).all = a.all ++ b.all := rfl

theorem scanFile_cand (spec : Option MatchFile) (g : Bool) (tr : List PyStr)
    (p : List PyStr) (info : FileInfo) :
    (scanFile spec g tr p info).cand
      = (scanFile spec g tr p info).all.filter
          (fun q => is_signature_file (pyJoin q)
            && (!g || tr.contains (pyJoin q))) := by
  simp only [scanFile]
  split
  · rfl
  · split
    · rfl
    · split
      · rfl
      · split
        · rfl
        · simp [emptyAcc, List.filter_cons]

theorem scanFilesAcc_cand (spec : Option MatchFile) (g : Bool)
    (tr : List PyStr) (segs : List PyStr) (files : List (PyStr × FileInfo)) :
    (scanFilesAcc spec g tr segs files).cand
      = (scanFilesAcc spec g tr segs files).all.filter
          (fun q => is_signature_file (pyJoin q)
            && (!g || tr.contains (pyJoin q))) := by
  induction files with
  | nil => rfl
  | cons f rest ih =>
      obtain ⟨name, info⟩ := f
      simp only [scanFilesAcc, append_cand, append_all, List.filter_append]
      rw [ih, scanFile_cand]

mutual
theorem scanDirAcc_cand (spec : Option MatchFile) (g : Bool)
    (tr : List PyStr) (segs : List PyStr) :
    ∀ t : FSTree,
      (scanDirAcc spec g tr segs t).cand
        = (scanDirAcc spec g tr segs t).all.filter
            (fun q => is_signature_file (pyJoin q)
              && (!g || tr.contains (pyJoin q)))
  | .node r subs files => by
      simp only [scanDirAcc]
      split
      · simp only [append_cand, append_all, List.filter_append]
        rw [scanSubsAcc_cand spec g tr segs subs]
        have h := scanFilesAcc_cand spec g tr segs files
        exact congrArg (· ++ _) h
      · rfl
theorem scanSubsAcc_cand (spec : Option MatchFile) (g : Bool)
    (tr : List PyStr) (segs : List PyStr) :
    ∀ l : FSubs,
      (scanSubsAcc spec g tr segs l).cand
        = (scanSubsAcc spec g tr segs l).all.filter
            (fun q => is_signature_file (pyJoin q)
              && (!g || tr.contains (pyJoin q)))
  | .nil => rfl
  | .cons name child rest => by
      simp only [scanSubsAcc, append_cand, append_all, List.filter_append]
      rw [scanSubsAcc_cand spec g tr segs rest]
      split
      · rfl
      · rw [scanDirAcc_cand spec g tr (segs ++ [name]) child]
end

theorem scanRootAcc_cand (spec : Option MatchFile) (g : Bool)
    (tr : List PyStr) (root : Option FSTree) :
    (scanRootAcc spec g tr root).cand
      = (scanRootAcc spec g tr root).all.filter
          (fun q => is_signature_file (pyJoin q)
            && (!g || tr.contains (pyJoin q))) := by
  cases root with
  | none => rfl
  | some t => exact scanDirAcc_cand spec g tr [] t

/-- Claim C5: in every scan result a path is a signature candidate
exactly when it is in the visible-files list, its extension is
recognised by `is_signature_file`, and either git tracking is not
required or the path is in the tracked set; hence the candidates are a
subset of the visible files, and both lists are sorted. -/
theorem c5 (root : Option FSTree) (spec : Option MatchFile) (isRepo : Bool)
    (o : GitQueryOutcome) (g : Bool) :
    (∀ s, s ∈ (scan_project_files root spec isRepo o g).signature_candidates
      ↔ (s ∈ (scan_project_files root spec isRepo o g).all_files ∧
         is_signature_file s = true ∧
         (g = false ∨
          (scan_project_files root spec isRepo o g).git_tracked.contains s
            = true))) ∧
    (∀ s, s ∈ (scan_project_files root spec isRepo o g).signature_candidates
      → s ∈ (scan_project_files root spec isRepo o g).all_files) ∧
    List.Sorted pyLeRel (scan_project_files root spec isRepo o g).all_files ∧
    List.Sorted pyLeRel
      (scan_project_files root spec isRepo o g).signature_candidates := by
  have hmain : ∀ s,
      s ∈ (scan_project_files root spec isRepo o g).signature_candidates
      ↔ (s ∈ (scan_project_files root spec isRepo o g).all_files ∧
         is_signature_file s = true ∧
         (g = false ∨
          (scan_project_files root spec isRepo o g).git_tracked.contains s
            = true)) := by
    intro s
    simp only [scan_project_files]
    rw [mem_sortedPaths, mem_sortedPaths,
      scanRootAcc_cand spec g (trackedSetOf isRepo o) root]
    constructor
    · intro h
      obtain ⟨p, hp, hjoin⟩ := List.mem_map.mp h
      obtain ⟨hpall, hpred⟩ := List.mem_filter.mp hp
      rw [Bool.and_eq_true, Bool.or_eq_true, Bool.not_eq_true'] at hpred
      subst hjoin
      exact ⟨List.mem_map.mpr ⟨p, hpall, rfl⟩, hpred.1, hpred.2⟩
    · rintro ⟨hall, hsig, htr⟩
      obtain ⟨p, hpall, hjoin⟩ := List.mem_map.mp hall
      refine List.mem_map.mpr ⟨p, List.mem_filter.mpr ⟨hpall, ?_⟩, hjoin⟩
      rw [Bool.and_eq_true, Bool.or_eq_true, Bool.not_eq_true', hjoin]
      exact ⟨hsig, htr⟩
  refine ⟨hmain, fun s hs => ((hmain s).mp hs).1, ?_, ?_⟩
  · exact sorted_sortedPaths _
  · exact sorted_sortedPaths _

theorem fileClean_of_dirClean {spec : Option MatchFile} {segs : List PyStr}
    (h : dirClean spec segs) (name : PyStr) :
    fileClean spec (segs ++ [name]) := by
  intro d hd hpre hne
  rcases List.prefix_concat_iff.mp hpre with he | hp
  · exact absurd he hne
  · exact h d hd hp

theorem scanFile_shape (spec : Option MatchFile) (g : Bool)
    (tr : List PyStr) (p : List PyStr) (info : FileInfo) :
    (∀ q, q ∈ (scanFile spec g tr p info).all ∨
          q ∈ (scanFile spec g tr p info).cand ∨
          q ∈ (scanFile spec g tr p info).opened → q = p) ∧
    (scanFile spec g tr p info).listed = [] := by
  simp only [scanFile]
  split
  · simp [emptyAcc]
  · split
    · refine ⟨?_, rfl⟩
      intro q hq
      rcases hq with h | h | h
      · simp [emptyAcc] at h
      · simp [emptyAcc] at h
      · split at h <;> simp_all
    · split
      · refine ⟨?_, rfl⟩
        intro q hq
        rcases hq with h | h | h
        · simp [emptyAcc] at h
        · simp [emptyAcc] at h
        · split at h <;> simp_all
      · split
        · refine ⟨?_, rfl⟩
          intro q hq
          rcases hq with h | h | h
          · simp [emptyAcc] at h
          · simp [emptyAcc] at h
          · split at h <;> simp_all
        · refine ⟨?_, rfl⟩
          intro q hq
          rcases hq with h | h | h
          · simp_all
          · split at h <;> simp_all
          · split at h <;> simp_all

theorem scanFilesAcc_clean (spec : Option MatchFile) (g : Bool)
    (tr : List PyStr) (segs : List PyStr)
    (files : List (PyStr × FileInfo)) (h : dirClean spec segs) :
    (∀ p, p ∈ (scanFilesAcc spec g tr segs files).all ∨
          p ∈ (scanFilesAcc spec g tr segs files).cand ∨
          p ∈ (scanFilesAcc spec g tr segs files).opened →
      fileClean spec p) ∧
    (scanFilesAcc spec g tr segs files).listed = [] := by
  induction files with
  | nil =>
      refine ⟨?_, rfl⟩
      intro p hp
      rcases hp with hh | hh | hh <;> simp [scanFilesAcc, emptyAcc] at hh
  | cons f rest ih =>
      obtain ⟨name, info⟩ := f
      obtain ⟨hsh, hls⟩ := scanFile_shape spec g tr (segs ++ [name]) info
      refine ⟨?_, ?_⟩
      · intro p hp
        have hmem : (p ∈ (scanFile spec g tr (segs ++ [name]) info).all ∨
              p ∈ (scanFile spec g tr (segs ++ [name]) info).cand ∨
              p ∈ (scanFile spec g tr (segs ++ [name]) info).opened) ∨
            (p ∈ (scanFilesAcc spec g tr segs rest).all ∨
              p ∈ (scanFilesAcc spec g tr segs rest).cand ∨
              p ∈ (scanFilesAcc spec g tr segs rest).opened) := by
          rcases hp with hh | hh | hh <;>
            rcases List.mem_append.mp hh with hh' | hh' <;> tauto
        rcases hmem with hh | hh
        · rw [hsh p hh]
          exact fileClean_of_dirClean h name
        · exact ih.1 p hh
      · show (scanFile spec g tr (segs ++ [name]) info).listed ++
            (scanFilesAcc spec g tr segs rest).listed = []
        rw [hls, ih.2]
        rfl

mutual
theorem scanDirAcc_clean (spec : Option MatchFile) (g : Bool)
    (tr : List PyStr) (segs : List PyStr) :
    ∀ t : FSTree, dirClean spec segs →
      (∀ p, p ∈ (scanDirAcc spec g tr segs t).all ∨
            p ∈ (scanDirAcc spec g tr segs t).cand ∨
            p ∈ (scanDirAcc spec g tr segs t).opened → fileClean spec p) ∧
      (∀ q, q ∈ (scanDirAcc spec g tr segs t).listed → dirClean spec q)
  | .node r subs files, h => by
      simp only [scanDirAcc]
      split
      · obtain ⟨hfa, hfl⟩ := scanFilesAcc_clean spec g tr segs files h
        obtain ⟨hsa, hsl⟩ := scanSubsAcc_clean spec g tr segs subs h
        refine ⟨?_, ?_⟩
        · intro p hp
          have hmem : (p ∈ (scanFilesAcc spec g tr segs files).all ∨
                p ∈ (scanFilesAcc spec g tr segs files).cand ∨
                p ∈ (scanFilesAcc spec g tr segs files).opened) ∨
              (p ∈ (scanSubsAcc spec g tr segs subs).all ∨
                p ∈ (scanSubsAcc spec g tr segs subs).cand ∨
                p ∈ (scanSubsAcc spec g tr segs subs).opened) := by
            rcases hp with hh | hh | hh <;>
              rcases List.mem_append.mp hh with hh' | hh' <;> tauto
          rcases hmem with hh | hh
          · exact hfa p hh
          · exact hsa p hh
        · intro q hq
          have hq' : q ∈ (segs ::
                (scanFilesAcc spec g tr segs files).listed) ++
              (scanSubsAcc spec g tr segs subs).listed := hq
          rcases List.mem_append.mp hq' with hh | hh
          · rcases List.mem_cons.mp hh with he | hh'
            · exact he ▸ h
            · rw [hfl] at hh'
              simp at hh'
          · exact hsl q hh
      · refine ⟨?_, ?_⟩
        · intro p hp
          rcases hp with hh | hh | hh <;> simp [emptyAcc] at hh
        · intro q hq
          simp [emptyAcc] at hq
theorem scanSubsAcc_clean (spec : Option MatchFile) (g : Bool)
    (tr : List PyStr) (segs : List PyStr) :
    ∀ l : FSubs, dirClean spec segs →
      (∀ p, p ∈ (scanSubsAcc spec g tr segs l).all ∨
            p ∈ (scanSubsAcc spec g tr segs l).cand ∨
            p ∈ (scanSubsAcc spec g tr segs l).opened → fileClean spec p) ∧
      (∀ q, q ∈ (scanSubsAcc spec g tr segs l).listed → dirClean spec q)
  | .nil, h => by
      refine ⟨?_, ?_⟩ <;> intro p hp
      · rcases hp with hh | hh | hh <;> simp [scanSubsAcc, emptyAcc] at hh
      · simp [scanSubsAcc, emptyAcc] at hp
  | .cons name child rest, h => by
      obtain ⟨hra, hrl⟩ := scanSubsAcc_clean spec g tr segs rest h
      simp only [scanSubsAcc]
      by_cases hx : should_exclude (some (pyJoin (segs ++ [name]))) true spec
      · refine ⟨?_, ?_⟩
        · intro p hp
          simp only [hx, if_pos] at hp
          have hmem : p ∈ (scanSubsAcc spec g tr segs rest).all ∨
              p ∈ (scanSubsAcc spec g tr segs rest).cand ∨
              p ∈ (scanSubsAcc spec g tr segs rest).opened := by
            rcases hp with hh | hh | hh <;>
              rcases List.mem_append.mp hh with hh' | hh' <;>
                first
                | (simp [emptyAcc] at hh')
                | tauto
          exact hra p hmem
        · intro q hq
          simp only [hx, if_pos] at hq
          rcases List.mem_append.mp hq with hh | hh
          · simp [emptyAcc] at hh
          · exact hrl q hh
      · have hchild : dirClean spec (segs ++ [name]) := by
          intro d hd hpre
          rcases List.prefix_concat_iff.mp hpre with he | hp
          · subst he
            exact Bool.not_eq_true _ ▸ (by
              simpa [dirExcl] using hx)
          · exact h d hd hp
        obtain ⟨hca, hcl⟩ :=
          scanDirAcc_clean spec g tr (segs ++ [name]) child hchild
        refine ⟨?_, ?_⟩
        · intro p hp
          simp only [hx, if_neg, Bool.false_eq_true, not_false_iff] at hp
          have hmem : (p ∈ (scanDirAcc spec g tr (segs ++ [name]) child).all ∨
                p ∈ (scanDirAcc spec g tr (segs ++ [name]) child).cand ∨
                p ∈ (scanDirAcc spec g tr (segs ++ [name]) child).opened) ∨
              (p ∈ (scanSubsAcc spec g tr segs rest).all ∨
                p ∈ (scanSubsAcc spec g tr segs rest).cand ∨
                p ∈ (scanSubsAcc spec g tr segs rest).opened) := by
            rcases hp with hh | hh | hh <;>
              rcases List.mem_append.mp hh with hh' | hh' <;> tauto
          rcases hmem with hh | hh
          · exact hca p hh
          · exact hra p hh
        · intro q hq
          simp only [hx, if_neg, Bool.false_eq_true, not_false_iff] at hq
          rcases List.mem_append.mp hq with hh | hh
          · exact hcl q hh
          · exact hrl q hh
end

/-- Claim C1: for a directory whose root-relative path the pattern set
classifies as excluded, the walk prunes it before descending — nothing
at or below it is ever listed, no file below it is ever opened, no file
below it reaches the accumulated visible-files or signature-candidate
lists, and consequently no such path appears in the sorted lists the
scan returns. -/
theorem c1 (spec : Option MatchFile) (g : Bool) (tr : List PyStr)
    (t : FSTree) (d : List PyStr) (hne : d ≠ [])
    (hex : dirExcl spec d = true) :
    (∀ p ∈ (scanDirAcc spec g tr [] t).all, ¬ (d <+: p ∧ d ≠ p)) ∧
    (∀ p ∈ (scanDirAcc spec g tr [] t).cand, ¬ (d <+: p ∧ d ≠ p)) ∧
    (∀ q ∈ (scanDirAcc spec g tr [] t).listed, ¬ d <+: q) ∧
    (∀ p ∈ (scanDirAcc spec g tr [] t).opened, ¬ (d <+: p ∧ d ≠ p)) ∧
    (∀ (isRepo : Bool) (o : GitQueryOutcome) (s : PyStr),
      s ∈ (scan_project_files (some t) spec isRepo o g).all_files →
      ∃ p, p ∈ (scanDirAcc spec g (trackedSetOf isRepo o) [] t).all ∧
        s = pyJoin p ∧ ¬ (d <+: p ∧ d ≠ p)) ∧
    (∀ (isRepo : Bool) (o : GitQueryOutcome) (s : PyStr),
      s ∈ (scan_project_files (some t) spec isRepo o g).signature_candidates →
      ∃ p, p ∈ (scanDirAcc spec g (trackedSetOf isRepo o) [] t).cand ∧
        s = pyJoin p ∧ ¬ (d <+: p ∧ d ≠ p)) := by
  have hroot : dirClean spec [] := by
    intro dd hdd hpre
    exact absurd (List.prefix_nil.mp hpre) hdd
  have hclean := fun tr' => scanDirAcc_clean spec g tr' [] t hroot
  have hfile : ∀ tr' p, p ∈ (scanDirAcc spec g tr' [] t).all ∨
      p ∈ (scanDirAcc spec g tr' [] t).cand ∨
      p ∈ (scanDirAcc spec g tr' [] t).opened →
      ¬ (d <+: p ∧ d ≠ p) := by
    rintro tr' p hp ⟨hpre, hnep⟩
    have := (hclean tr').1 p hp d hne hpre hnep
    rw [this] at hex
    simp at hex
  refine ⟨?_, ?_, ?_, ?_, ?_, ?_⟩
  · intro p hp
    exact hfile tr p (Or.inl hp)
  · intro p hp
    exact hfile tr p (Or.inr (Or.inl hp))
  · intro q hq hpre
    have := (hclean tr).2 q hq d hne hpre
    rw [this] at hex
    simp at hex
  · intro p hp
    exact hfile tr p (Or.inr (Or.inr hp))
  · intro isRepo o s hs
    rw [show (scan_project_files (some t) spec isRepo o g).all_files
        = sortedPaths (((scanDirAcc spec g (trackedSetOf isRepo o) [] t).all).map
            pyJoin) from rfl, mem_sortedPaths] at hs
    obtain ⟨p, hpall, hjoin⟩ := List.mem_map.mp hs
    exact ⟨p, hpall, hjoin.symm, hfile (trackedSetOf isRepo o) p (Or.inl hpall)⟩
  · intro isRepo o s hs
    rw [show (scan_project_files (some t) spec isRepo o g).signature_candidates
        = sortedPaths (((scanDirAcc spec g (trackedSetOf isRepo o) [] t).cand).map
            pyJoin) from rfl, mem_sortedPaths] at hs
    obtain ⟨p, hpall, hjoin⟩ := List.mem_map.mp hs
    exact ⟨p, hpall, hjoin.symm,
      hfile (trackedSetOf isRepo o) p (Or.inr (Or.inl hpall))⟩

/-- Witness for C1: in the sample project the excluded `node_modules`
directory satisfies the hypotheses, and the admitted file `a.py` is not
below it. -/
theorem c1_witness :
    ¬ ([pys "node_modules"] <+: [pys "a.py"] ∧
       [pys "node_modules"] ≠ ([pys "a.py"] : List PyStr)) :=
  (c1 none false [] sampleScanTree [pys "node_modules"] (by decide)
    (by decide)).1 [pys "a.py"] (by decide)

/-- Counterexample to C4 as stated: scanning a missing root directory is
not reported as a distinct failure — `os.walk` swallows the error and
the scan returns normally, with a result indistinguishable from
scanning an existing empty directory. -/
theorem c4_counterexample :
    scan_project_files none none false GitQueryOutcome.fileNotFoundError true
      = scan_project_files (some (FSTree.node true .nil [])) none false
          GitQueryOutcome.fileNotFoundError true := by
  decide

/-- Claim C4 as amended: a missing or unreadable root directory is
swallowed like every other I/O problem — the walk yields no entries and
the scan returns the empty result; an unreadable subdirectory
contributes nothing while its siblings are still scanned; a file whose
`stat` fails is skipped; a file that cannot be opened is classified
binary and skipped; so the scan always returns a (possibly partial)
result and no exception escapes it. -/
theorem c4_amended (spec : Option MatchFile) (isRepo : Bool)
    (o : GitQueryOutcome) (g : Bool) (tr : List PyStr) :
    scan_project_files none spec isRepo o g
      = ⟨[], [], trackedSetOf isRepo o⟩ ∧
    (∀ (segs : List PyStr) (subs : FSubs)
        (files : List (PyStr × FileInfo)),
      scanDirAcc spec g tr segs (.node false subs files) = emptyAcc) ∧
    (∀ (segs : List PyStr) (name : PyStr) (subs : FSubs)
        (files : List (PyStr × FileInfo)) (rest : FSubs),
      scanSubsAcc spec g tr segs (.cons name (.node false subs files) rest)
        = scanSubsAcc spec g tr segs rest) ∧
    (∀ p : PyStr, is_binary_file p none = true) ∧
    (∀ (p : List PyStr) (c : Option (List Nat)),
      (scanFile spec g tr p ⟨c, none⟩).all = [] ∧
      (scanFile spec g tr p ⟨c, none⟩).cand = []) := by
  refine ⟨rfl, fun _ _ _ => rfl, ?_, ?_, ?_⟩
  · intro segs name subs files rest
    simp only [scanSubsAcc, scanDirAcc]
    split <;> rfl
  · intro p
    cases h : hasBinExt p <;> simp [is_binary_file, h]
  · intro p c
    refine ⟨?_, ?_⟩ <;>
      (simp only [scanFile]
       split
       · rfl
       · split
         · rfl
         · rfl)

theorem itemRel_claimOrder {a b : TNode} (hab : itemRel a b) :
    claimOrder a b := by
  simp only [itemRel, itemLe] at hab
  by_cases hd : (!a.isDir) = (!b.isDir)
  · rw [if_pos hd] at hab
    right
    refine ⟨?_, hab⟩
    cases ha : a.isDir <;> cases hb : b.isDir <;> simp_all
  · rw [if_neg hd] at hab
    left
    cases ha : a.isDir <;> cases hb : b.isDir <;> simp_all

/-- Claim C9: the top-level rendering emits the root path as its first
line, unprefixed; the entries rendered below it are exactly the children
that the exclusion check keeps, sorted directories-first and then
case-insensitively by name; and in any rendered sibling list every
non-last sibling's block starts with a `├── ` connector while the last
sibling's block starts with `└── `. -/
theorem c9 (spec : Option MatchFile) (pathStr : PyStr)
    (children : List TNode) :
    generate_tree spec pathStr true true children
      = pathStr :: renderSibs spec [] (sortEntries spec children) ∧
    (sortEntries spec children).Perm (children.filter (keepEntry spec)) ∧
    List.Sorted claimOrder (sortEntries spec children) ∧
    (∀ (pref : PyStr) (items : List TNode) (x : TNode),
      renderSibs spec pref (items ++ [x])
        = items.flatMap (nonLastBlock spec pref) ++ lastBlock spec pref x) ∧
    (∀ pref : PyStr, renderSibs spec pref [] = []) := by
  refine ⟨rfl, List.perm_insertionSort itemRel _, ?_, ?_, ?_⟩
  · exact List.Pairwise.imp (fun h => itemRel_claimOrder h)
      (List.sorted_insertionSort itemRel _)
  · intro pref items x
    induction items with
    | nil =>
        cases x with
        | file n =>
            simp [renderSibs, lastBlock, format_name, TNode.name, TNode.isDir]
        | dir n r cs =>
            simp [renderSibs, lastBlock, format_name, TNode.name, TNode.isDir]
    | cons y ys ih =>
        have hne : (ys ++ [x]).isEmpty = false := by
          cases ys <;> rfl
        cases y with
        | file n =>
            simp only [List.cons_append, renderSibs, hne, List.flatMap_cons]
            rw [ih]
            simp [nonLastBlock, format_name, TNode.name, TNode.isDir]
        | dir n r cs =>
            simp only [List.cons_append, renderSibs, hne, List.flatMap_cons]
            rw [ih]
            simp [nonLastBlock, format_name, TNode.name, TNode.isDir]
  · intro pref
    simp [renderSibs]
